import Mathlib

/-!
Shallow embedding of the hangman game (`hangman.py`): the game-state data
model, the guess-evaluation algorithm, the round loop with its win/loss
termination logic, the guess-input validation loop, and the word-list
provider.  Python strings that hold one letter are modelled as `Char`; the
possibly-empty `current_guess` string is `Option Char` (`none` is the empty
string); Python sets of single-letter strings are `Finset Char`; the word
and raw input lines are `List Char`.
-/

/-- `PuzzleLetter = namedtuple('character', 'guessed')`. -/
structure PuzzleLetter where
  character : Char
  guessed : Bool
deriving DecidableEq, Repr

/-- The `images()` tuple of hangman ascii drawings (10 stages). -/
def images : List String :=
  [ "\n=====",
    "\n    +\n    |\n    |\n    |\n    |\n    |\n=====",
    "\n +--+\n    |\n    |\n    |\n    |\n    |\n=====",
    "\n +--+\n |  |\n    |\n    |\n    |\n    |\n=====",
    "\n +--+\n |  |\n O  |\n    |\n    |\n    |\n=====",
    "\n +--+\n |  |\n O  |\n |  |\n    |\n    |\n=====",
    "\n +--+\n |  |\n O  |\n/|  |\n    |\n    |\n=====",
    "\n +--+\n |  |\n O  |\n/|\\ |\n    |\n    |\n=====",
    "\n +--+\n |  |\n O  |\n/|\\ |\n/   |\n    |\n=====",
    "\n +--+\n |  |\n O  |\n/|\\ |\n/ \\ |\n    |\n=====" ]

/-- The maximal wrong-guess stage: `len(images()) - 1`. -/
def maxStages : Nat := images.length - 1

/-- The `GameState` dataclass with its field defaults. -/
structure GameState where
  player_name : String := ""
  word : List Char := []
  current_guess : Option Char := none
  guesses : Finset Char := ∅
  remaining_letters : Finset Char := ∅
  puzzle : List PuzzleLetter := []
  image_idx : Nat := 0
deriving DecidableEq

/-- A freshly constructed `GameState()` (all dataclass defaults). -/
def freshState : GameState := {}

/-- `GameState.initialise_game_state`: sets `remaining_letters = set(word)`
and builds the puzzle list with every letter unguessed.  It touches no
other field. -/
def GameState.initialise_game_state (g : GameState) : GameState :=
  { g with
    remaining_letters := g.word.toFinset
    puzzle := g.word.map (fun c => ⟨c, false⟩) }

/-- `GameState.update_puzzle`: marks every puzzle position whose character
equals the current guess as guessed. -/
def GameState.update_puzzle (g : GameState) : GameState :=
  { g with
    puzzle := g.puzzle.map (fun pl =>
      ⟨pl.character, pl.guessed || (some pl.character == g.current_guess)⟩) }

/-- `GameState.update_state_on_guess`: removing the current guess from
`remaining_letters` succeeds exactly when the guess is a present letter;
on success the puzzle is updated, on `KeyError` the image index grows. -/
def GameState.update_state_on_guess (g : GameState) : GameState :=
  match g.current_guess with
  | some c =>
    if c ∈ g.remaining_letters then
      GameState.update_puzzle
        { g with remaining_letters := g.remaining_letters.erase c }
    else { g with image_idx := g.image_idx + 1 }
  | none => { g with image_idx := g.image_idx + 1 }

/-- `GameState.reset_current_game`: clears the round-scoped fields,
keeping `player_name`. -/
def GameState.reset_current_game (g : GameState) : GameState :=
  { g with
    word := []
    current_guess := none
    guesses := ∅
    remaining_letters := ∅
    puzzle := []
    image_idx := 0 }

/-- `Hangman.initialise_game`: stores the puzzle word and completes
initialisation of the game state. -/
def initialise_game (g : GameState) (puzzle_word : List Char) : GameState :=
  GameState.initialise_game_state { g with word := puzzle_word }

/-- `Hangman.update_game_state`: records the current guess, adds it to the
set of guesses, and lets the state update itself. -/
def update_game_state (g : GameState) (new_guess : Char) : GameState :=
  GameState.update_state_on_guess
    { g with current_guess := some new_guess, guesses := insert new_guess g.guesses }

/-- `Hangman.player_loses`: the round is lost when the final hangman image
is displayed. -/
def player_loses (g : GameState) : Bool :=
  g.image_idx == images.length - 1

/-- `input().strip().upper()` applied to one raw input line. -/
def normalize_guess (s : List Char) : List Char :=
  (((s.dropWhile Char.isWhitespace).reverse.dropWhile Char.isWhitespace).reverse).map
    Char.toUpper

/-- `UI.get_guess` over a stream of raw input lines: keep prompting past
inputs that are not a single letter or that were guessed before; return
the first valid guess, `none` when the stream runs dry. -/
def get_guess (g : GameState) : List (List Char) → Option Char
  | [] => none
  | line :: rest =>
    match normalize_guess line with
    | [c] => if c ∈ g.guesses then get_guess g rest else some c
    | _ => get_guess g rest

/-- `play_game`, the main round loop, driven by the stream of validated
guesses the `UI.get_guess` calls deliver: while letters remain, apply the
next guess and stop with `false` as soon as the hangman is complete;
when no letters remain the player has won.  `none` models a round still
blocked on input. -/
def play_game : List Char → GameState → Option (Bool × GameState)
  | [], g => if g.remaining_letters = ∅ then some (true, g) else none
  | c :: rest, g =>
    if g.remaining_letters = ∅ then some (true, g)
    else
      let g' := update_game_state g c
      if player_loses g' then some (false, g') else play_game rest g'

/-- Raw content of the triple-quoted `animal_words` string in
`get_word_list`. -/
def animal_words : String :=
  "\n    Dog Cat Elephant Lion Tiger Giraffe Zebra Bear Koala\n    Panda Kangaroo Penguin Dolphin Eagle Owl Fox Wolf Cheetah\n    Leopard Jaguar Horse Cow Pig Sheep Goat Chicken Duck Goose\n    Swan Octopus Shark Whale Platypus Chimpanzee Gorilla Orangutan\n    Baboon Raccoon Squirrel Bat Hedgehog Armadillo Sloth Porcupine\n    Anteater Camel Dingo Kangaroo Rat Lemur Meerkat Ocelot Parrot\n    Quokka Vulture Wombat Yak Iguana jaguar Kakapo Lemming\n    Manatee Nutria Ostrich Pangolin Quail Rhinoceros Serval\n    Wallaby Coypu Tapir Pheasant\n    "

/-- Python `str.split()` with no separator: split on runs of whitespace,
dropping empty pieces. -/
def splitWS (s : List Char) : List (List Char) :=
  (s.foldr
    (fun c acc =>
      if c.isWhitespace then [] :: acc
      else (c :: acc.headD []) :: acc.tail)
    [[]]).filter (fun w => ¬ w.isEmpty)

/-- The `word_list_dict` table: the only registered category is
`"animals"` (keys as character lists). -/
def word_list_dict : List (List Char × String) := [("animals".data, animal_words)]

/-- `get_word_list`: lower-case the category, look it up in the table and
return the upper-cased words; an unknown category raises
`ValueError("Invalid category.")`. -/
def get_word_list (category : String) : Except String (List String) :=
  match word_list_dict.lookup (category.data.map Char.toLower) with
  | some ws => .ok ((splitWS ws.data).map (fun w => String.mk (w.map Char.toUpper)))
  | none => .error "Invalid category."

/-- The word list `get_word_list` returns for the category `"animals"`. -/
def animals_upper : List String :=
  (splitWS animal_words.data).map (fun w => String.mk (w.map Char.toUpper))

/-- The set of characters shown to the player: characters of the puzzle
positions already guessed. -/
def revealedChars (p : List PuzzleLetter) : Finset Char :=
  ((p.filter (fun pl => pl.guessed)).map PuzzleLetter.character).toFinset

/-- States reachable from a freshly initialised round by validated guesses:
`UI.get_guess` guarantees every guess handed to
`Hangman.update_game_state` is a single letter not guessed before. -/
inductive Reachable (w : List Char) : GameState → Prop
  | init : Reachable w (initialise_game freshState w)
  | step (g : GameState) (c : Char) (hr : Reachable w g) (hnew : c ∉ g.guesses) :
      Reachable w (update_game_state g c)

/-- A state left dirty by a previous round: a guessed letter and a
non-zero image index survive into `initialise_game`. -/
def gDirty : GameState := { guesses := {'X'}, image_idx := 3 }

/-- A state already at the final drawing stage, about to receive one more
wrong guess. -/
def gIdx9 : GameState :=
  { word := ['D','O','G'], remaining_letters := {'D','O','G'}, image_idx := maxStages }

/-- A hypothetical state in which one correct guess simultaneously empties
`remaining_letters` and leaves `image_idx` at the final stage. -/
def gEdge : GameState :=
  { word := ['A'], remaining_letters := {'A'}, puzzle := [⟨'A', false⟩],
    image_idx := maxStages }

/-- A state in which the letter A was already guessed. -/
def gRep : GameState := { guesses := {'A'} }

/-- Claim C10: `reset_current_game` sets the round-scoped fields `word`,
`current_guess`, `guesses`, `remaining_letters`, `puzzle` and `image_idx`
to their empty or zero values and leaves the session-scoped `player_name`
equal to its value before the call. -/
theorem reset_clears_round_state (g : GameState) :
    (g.reset_current_game).word = [] ∧
    (g.reset_current_game).current_guess = none ∧
    (g.reset_current_game).guesses = ∅ ∧
    (g.reset_current_game).remaining_letters = ∅ ∧
    (g.reset_current_game).puzzle = [] ∧
    (g.reset_current_game).image_idx = 0 ∧
    (g.reset_current_game).player_name = g.player_name := by
  simp [GameState.reset_current_game]

/-- Claim C8: a single `update_game_state` call with a letter still in
`remaining_letters` rewrites the puzzle in one pass, and afterwards every
position whose character equals that letter is revealed — no second guess
of the letter is needed. -/
theorem update_reveals_all_occurrences (g : GameState) (c : Char)
    (hc : c ∈ g.remaining_letters) :
    (update_game_state g c).puzzle =
      g.puzzle.map (fun pl => ⟨pl.character, pl.guessed || (pl.character == c)⟩) ∧
    ∀ pl ∈ (update_game_state g c).puzzle, pl.character = c → pl.guessed = true := by
  have hpz : (update_game_state g c).puzzle =
      g.puzzle.map (fun pl => ⟨pl.character, pl.guessed || (pl.character == c)⟩) := by
    simp [update_game_state, GameState.update_state_on_guess, hc,
      GameState.update_puzzle]
  refine ⟨hpz, ?_⟩
  intro pl hpl hchar
  rw [hpz, List.mem_map] at hpl
  obtain ⟨q, hq, rfl⟩ := hpl
  simp only [PuzzleLetter.character] at hchar
  simp [hchar]

/-- Claim C5 as stated is false on the code: from a state whose
`image_idx` already equals `maxStages`, one more incorrect guess pushes
`image_idx` to `maxStages + 1`; there is no saturation in
`update_state_on_guess`. -/
theorem wrong_guess_no_saturation_counterexample :
    ¬ ((update_game_state gIdx9 'X').image_idx = maxStages) := by decide

/-- Claim C5 amended: `update_game_state` with a letter not in
`remaining_letters` increments `image_idx` by exactly one, without any
saturation at `maxStages`. -/
theorem wrong_guess_increments (g : GameState) (c : Char)
    (hc : c ∉ g.remaining_letters) :
    (update_game_state g c).image_idx = g.image_idx + 1 := by
  simp [update_game_state, GameState.update_state_on_guess, hc]

theorem wrong_guess_increments_witness :
    ('X' ∉ gIdx9.remaining_letters) ∧
    (update_game_state gIdx9 'X').image_idx = maxStages + 1 :=
  ⟨by decide, wrong_guess_increments gIdx9 'X' (by decide)⟩

/-- Claim C3 as stated is false on the code: `initialise_game` sets
neither `image_idx` to 0 nor `guesses` to empty; a dirty pre-state keeps
its stale values through initialisation. -/
theorem initialise_not_reset_counterexample :
    ¬ ((initialise_game gDirty ['A']).image_idx = 0 ∧
       (initialise_game gDirty ['A']).guesses = ∅) := by decide

/-- Claim C3 amended: `initialise_game` establishes
`remaining_letters = distinct(word)` and an all-hidden puzzle regardless
of the previous values of those two fields, and leaves `image_idx` and
`guesses` untouched; hence all four postconditions of the claim hold
exactly for pre-states that already have `image_idx = 0` and no recorded
guesses, as after construction or `reset_current_game`. -/
theorem initialise_game_establishes (g : GameState) (w : List Char)
    (hne : w ≠ []) (hupper : ∀ c ∈ w, c.isUpper = true)
    (hidx : g.image_idx = 0) (hg : g.guesses = ∅) :
    (initialise_game g w).remaining_letters = w.toFinset ∧
    (initialise_game g w).puzzle = w.map (fun c => ⟨c, false⟩) ∧
    (initialise_game g w).image_idx = 0 ∧
    (initialise_game g w).guesses = ∅ ∧
    (initialise_game g w).word = w := by
  simp [initialise_game, GameState.initialise_game_state, hidx, hg]

theorem initialise_game_establishes_witness :
    (initialise_game freshState ['A','B']).remaining_letters
        = (['A','B'] : List Char).toFinset ∧
    (initialise_game freshState ['A','B']).puzzle
        = (['A','B'] : List Char).map (fun c => ⟨c, false⟩) ∧
    (initialise_game freshState ['A','B']).image_idx = 0 ∧
    (initialise_game freshState ['A','B']).guesses = ∅ ∧
    (initialise_game freshState ['A','B']).word = ['A','B'] :=
  initialise_game_establishes freshState ['A','B'] (by decide) (by decide) rfl rfl

/-- Claim C7: inside the round loop the loss test comes right after the
guess, before the win test at the loop head: whenever the state after a
guess satisfies `player_loses`, `play_game` returns the loss outcome
`false` with that state — even when its `remaining_letters` are
simultaneously empty. -/
theorem loss_checked_before_win (g : GameState) (c : Char) (rest : List Char)
    (hactive : g.remaining_letters ≠ ∅)
    (hlost : player_loses (update_game_state g c) = true) :
    play_game (c :: rest) g = some (false, update_game_state g c) := by
  simp [play_game, hactive, hlost]

theorem loss_checked_before_win_witness :
    gEdge.remaining_letters ≠ ∅ ∧
    player_loses (update_game_state gEdge 'A') = true ∧
    (update_game_state gEdge 'A').remaining_letters = ∅ ∧
    play_game ['A'] gEdge = some (false, update_game_state gEdge 'A') :=
  ⟨by decide, by decide, by decide,
    loss_checked_before_win gEdge 'A' [] (by decide) (by decide)⟩

/-- Claim C6: the `get_guess` validation loop skips a normalized letter
that is already in `guesses` and keeps prompting on the remaining input
stream, and any guess `get_guess` does hand to the state update is not a
repeat — so a second submission of the same letter never reaches the
state mutation and leaves `image_idx` and `remaining_letters` untouched. -/
theorem get_guess_rejects_repeat (g : GameState) (c c' : Char)
    (rest inputs : List (List Char))
    (hmem : c ∈ g.guesses) (hup : c.toUpper = c) (hws : c.isWhitespace = false)
    (hret : get_guess g inputs = some c') :
    get_guess g ([c] :: rest) = get_guess g rest ∧ c' ∉ g.guesses := by
  constructor
  · have hnorm : normalize_guess [c] = [c] := by
      simp [normalize_guess, List.dropWhile, hws, hup]
    simp [get_guess, hnorm, hmem]
  · clear hmem hup hws
    induction inputs with
    | nil => simp [get_guess] at hret
    | cons line rest' ih =>
      unfold get_guess at hret
      split at hret
      · split at hret
        · exact ih hret
        · rename_i hnot
          injection hret with h
          subst h
          exact hnot
      · exact ih hret

theorem get_guess_rejects_repeat_witness :
    get_guess gRep [['A'],['B']] = get_guess gRep [['B']] ∧ 'B' ∉ gRep.guesses :=
  get_guess_rejects_repeat gRep 'A' 'B' [['B']] [['A'],['B']]
    (by decide) (by decide) (by decide) (by decide)

/-- Field-by-field effect of `update_game_state` on a correct guess. -/
theorem update_correct_fields (g : GameState) (c : Char)
    (hc : c ∈ g.remaining_letters) :
    (update_game_state g c).remaining_letters = g.remaining_letters.erase c ∧
    (update_game_state g c).image_idx = g.image_idx ∧
    (update_game_state g c).guesses = insert c g.guesses ∧
    (update_game_state g c).puzzle =
      g.puzzle.map (fun pl => ⟨pl.character, pl.guessed || (pl.character == c)⟩) := by
  simp [update_game_state, GameState.update_state_on_guess, hc,
    GameState.update_puzzle]

/-- Field-by-field effect of `update_game_state` on a wrong guess. -/
theorem update_wrong_fields (g : GameState) (c : Char)
    (hc : c ∉ g.remaining_letters) :
    (update_game_state g c).remaining_letters = g.remaining_letters ∧
    (update_game_state g c).image_idx = g.image_idx + 1 ∧
    (update_game_state g c).guesses = insert c g.guesses ∧
    (update_game_state g c).puzzle = g.puzzle := by
  simp [update_game_state, GameState.update_state_on_guess, hc]

/-- Round-loop lemma for all-correct play: when the pending guesses are
exactly the remaining letters, each without repeats, and the image index
is still 0, the loop wins without advancing the drawing and reveals every
position whose letter gets guessed. -/
theorem play_game_correct_aux (gs : List Char) :
    ∀ g : GameState, gs.Nodup → g.remaining_letters = gs.toFinset →
    g.image_idx = 0 →
    (∀ pl ∈ g.puzzle, pl.guessed = true ∨ pl.character ∈ g.remaining_letters) →
    ∃ g', play_game gs g = some (true, g') ∧
      g'.remaining_letters = ∅ ∧ g'.image_idx = 0 ∧
      g'.puzzle.map PuzzleLetter.character = g.puzzle.map PuzzleLetter.character ∧
      ∀ pl ∈ g'.puzzle, pl.guessed = true := by
  induction gs with
  | nil =>
    intro g _ hrem hidx hinv
    refine ⟨g, ?_, ?_, hidx, rfl, ?_⟩
    · simp only [List.toFinset_nil] at hrem
      simp [play_game, hrem]
    · simpa using hrem
    · intro pl hpl
      rcases hinv pl hpl with h | h
      · exact h
      · rw [hrem] at h
        simp at h
  | cons c rest ih =>
    intro g hnd hrem hidx hinv
    have hcin : c ∈ g.remaining_letters := by rw [hrem]; simp
    have hne : g.remaining_letters ≠ ∅ := by
      rw [hrem]
      simp
    obtain ⟨hrem1, hidx1, hg1, hpz1⟩ := update_correct_fields g c hcin
    have hcrest : c ∉ rest := (List.nodup_cons.mp hnd).1
    have hndrest : rest.Nodup := (List.nodup_cons.mp hnd).2
    have hrem1' : (update_game_state g c).remaining_letters = rest.toFinset := by
      rw [hrem1, hrem, List.toFinset_cons]
      exact Finset.erase_insert (by simpa using hcrest)
    have hnl : player_loses (update_game_state g c) = false := by
      simp only [player_loses, hidx1, hidx]
      decide
    have hstep : play_game (c :: rest) g = play_game rest (update_game_state g c) := by
      simp [play_game, hne, hnl]
    have hinv1 : ∀ pl ∈ (update_game_state g c).puzzle,
        pl.guessed = true ∨ pl.character ∈ (update_game_state g c).remaining_letters := by
      rw [hpz1, hrem1']
      intro pl hpl
      rw [List.mem_map] at hpl
      obtain ⟨q, hq, rfl⟩ := hpl
      rcases hinv q hq with h | h
      · left; simp [h]
      · rw [hrem, List.toFinset_cons] at h
        rcases Finset.mem_insert.mp h with h | h
        · left; simp [h]
        · right; simpa using h
    obtain ⟨g', h1, h2, h3, h4, h5⟩ :=
      ih (update_game_state g c) hndrest hrem1' (by rw [hidx1, hidx]) hinv1
    refine ⟨g', ?_, h2, h3, ?_, h5⟩
    · rw [hstep]; exact h1
    · rw [h4, hpz1, List.map_map]
      simp [Function.comp]

/-- Claim C1: from a freshly initialised round over a non-empty uppercase
word, guessing exactly the distinct letters of the word (each once, all
correct) wins the round: `play_game` returns `true`, `remaining_letters`
ends empty, `image_idx` stays 0 and every puzzle position is revealed. -/
theorem play_game_all_correct_wins (w gs : List Char)
    (hw : w ≠ []) (hupper : ∀ c ∈ w, c.isUpper = true)
    (hnd : gs.Nodup) (hcover : gs.toFinset = w.toFinset) :
    ∃ g', play_game gs (initialise_game freshState w) = some (true, g') ∧
      g'.remaining_letters = ∅ ∧ g'.image_idx = 0 ∧
      g'.puzzle.map PuzzleLetter.character = w ∧
      ∀ pl ∈ g'.puzzle, pl.guessed = true := by
  have hrem : (initialise_game freshState w).remaining_letters = gs.toFinset := by
    simp [initialise_game, GameState.initialise_game_state, freshState, hcover]
  have hinv : ∀ pl ∈ (initialise_game freshState w).puzzle,
      pl.guessed = true ∨
        pl.character ∈ (initialise_game freshState w).remaining_letters := by
    intro pl hpl
    right
    simp only [initialise_game, GameState.initialise_game_state,
      List.mem_map] at hpl ⊢
    obtain ⟨a, ha, rfl⟩ := hpl
    simpa using ha
  obtain ⟨g', h1, h2, h3, h4, h5⟩ :=
    play_game_correct_aux gs (initialise_game freshState w) hnd hrem rfl hinv
  refine ⟨g', h1, h2, h3, ?_, h5⟩
  rw [h4]
  simp only [initialise_game, GameState.initialise_game_state, List.map_map]
  have hcomp : (PuzzleLetter.character ∘ fun c => (⟨c, false⟩ : PuzzleLetter)) = id :=
    rfl
  rw [hcomp, List.map_id]

theorem play_game_all_correct_wins_witness :
    ∃ g', play_game ['A','T','C'] (initialise_game freshState ['C','A','T'])
        = some (true, g') ∧
      g'.remaining_letters = ∅ ∧ g'.image_idx = 0 ∧
      g'.puzzle.map PuzzleLetter.character = ['C','A','T'] ∧
      ∀ pl ∈ g'.puzzle, pl.guessed = true :=
  play_game_all_correct_wins ['C','A','T'] ['A','T','C']
    (by decide) (by decide) (by decide) (by decide)

/-- Round-loop lemma for all-wrong play: when every pending guess misses
the remaining letters and the guesses are exactly enough to drive the
image index up to `maxStages`, the loop reports a loss, leaving
`remaining_letters` and the puzzle untouched. -/
theorem play_game_wrong_aux (gs : List Char) :
    ∀ g : GameState, gs ≠ [] →
    (∀ c ∈ gs, c ∉ g.remaining_letters) →
    g.remaining_letters ≠ ∅ →
    g.image_idx + gs.length = maxStages →
    ∃ g', play_game gs g = some (false, g') ∧ g'.image_idx = maxStages ∧
      g'.remaining_letters = g.remaining_letters ∧ g'.puzzle = g.puzzle := by
  induction gs with
  | nil => intro g h; exact absurd rfl h
  | cons c rest ih =>
    intro g _ hmiss hne hcount
    have hcmiss : c ∉ g.remaining_letters := hmiss c (by simp)
    obtain ⟨hrem1, hidx1, hg1, hpz1⟩ := update_wrong_fields g c hcmiss
    by_cases hrest : rest = []
    · subst hrest
      simp only [List.length_cons, List.length_nil, Nat.zero_add] at hcount
      have h9 : (update_game_state g c).image_idx = maxStages := by
        rw [hidx1]; omega
      have hloses : player_loses (update_game_state g c) = true := by
        have h9' : (update_game_state g c).image_idx = images.length - 1 := h9
        simp [player_loses, h9']
      refine ⟨update_game_state g c, ?_, h9, hrem1, hpz1⟩
      simp [play_game, hne, hloses]
    · have hpos : 0 < rest.length := List.length_pos.mpr hrest
      have hne9 : (update_game_state g c).image_idx ≠ maxStages := by
        rw [hidx1]
        simp only [List.length_cons] at hcount
        omega
      have hnl : player_loses (update_game_state g c) = false := by
        have hne9' : (update_game_state g c).image_idx ≠ images.length - 1 := hne9
        simp [player_loses, hne9']
      have hstep : play_game (c :: rest) g
          = play_game rest (update_game_state g c) := by
        simp [play_game, hne, hnl]
      obtain ⟨g', h1, h2, h3, h4⟩ := ih (update_game_state g c) hrest
        (by
          intro a ha
          rw [hrem1]
          exact hmiss a (by simp [ha]))
        (by rw [hrem1]; exact hne)
        (by
          rw [hidx1]
          simp only [List.length_cons] at hcount
          omega)
      exact ⟨g', by rw [hstep]; exact h1, h2, by rw [h3, hrem1],
        by rw [h4, hpz1]⟩

/-- Claim C2: from a freshly initialised round over a non-empty uppercase
word, a sequence of `maxStages` distinct guesses none of which occurs in
the word loses the round: `play_game` returns `false`, `image_idx` ends
at `maxStages` and `remaining_letters` is unchanged from its initial
value `distinct(w)`. -/
theorem play_game_all_wrong_loses (w gs : List Char)
    (hw : w ≠ []) (hupper : ∀ c ∈ w, c.isUpper = true)
    (hnd : gs.Nodup) (hlen : gs.length = maxStages)
    (hmiss : ∀ c ∈ gs, c ∉ w.toFinset) :
    ∃ g', play_game gs (initialise_game freshState w) = some (false, g') ∧
      g'.image_idx = maxStages ∧
      g'.remaining_letters = (initialise_game freshState w).remaining_letters ∧
      g'.remaining_letters = w.toFinset := by
  have hgsne : gs ≠ [] := by
    intro h
    subst h
    exact absurd hlen (by decide)
  have hrem : (initialise_game freshState w).remaining_letters = w.toFinset := by
    simp [initialise_game, GameState.initialise_game_state, freshState]
  obtain ⟨g', h1, h2, h3, h4⟩ :=
    play_game_wrong_aux gs (initialise_game freshState w) hgsne
      (by intro c hc; rw [hrem]; exact hmiss c hc)
      (by
        rw [hrem]
        simpa [List.toFinset_eq_empty_iff] using hw)
      (by simpa [initialise_game, GameState.initialise_game_state, freshState]
        using hlen)
  exact ⟨g', h1, h2, h3, by rw [h3, hrem]⟩

theorem play_game_all_wrong_loses_witness :
    ∃ g', play_game ['X','Y','Z','Q','W','E','R','U','I']
        (initialise_game freshState ['D','O','G']) = some (false, g') ∧
      g'.image_idx = maxStages ∧
      g'.remaining_letters
        = (initialise_game freshState ['D','O','G']).remaining_letters ∧
      g'.remaining_letters = (['D','O','G'] : List Char).toFinset :=
  play_game_all_wrong_loses ['D','O','G'] ['X','Y','Z','Q','W','E','R','U','I']
    (by decide) (by decide) (by decide) (by decide) (by decide)

theorem update_reveals_all_occurrences_witness :
    ('A' ∈ (initialise_game freshState ['A','B','A']).remaining_letters) ∧
    ((update_game_state (initialise_game freshState ['A','B','A']) 'A').puzzle =
      (initialise_game freshState ['A','B','A']).puzzle.map
        (fun pl => ⟨pl.character, pl.guessed || (pl.character == 'A')⟩) ∧
    ∀ pl ∈ (update_game_state (initialise_game freshState ['A','B','A']) 'A').puzzle,
      pl.character = 'A' → pl.guessed = true) :=
  ⟨by decide,
    update_reveals_all_occurrences (initialise_game freshState ['A','B','A']) 'A'
      (by decide)⟩

/-- The full state invariant maintained along every reachable state: the
puzzle spells the word, `remaining_letters` is the distinct letters not
yet guessed, and a position is revealed exactly when its letter has been
guessed. -/
theorem reachable_state_inv (w : List Char) (g : GameState) (h : Reachable w g) :
    g.puzzle.map PuzzleLetter.character = w ∧
    g.remaining_letters = w.toFinset \ g.guesses ∧
    ∀ pl ∈ g.puzzle, (pl.guessed = true ↔ pl.character ∈ g.guesses) := by
  induction h with
  | init =>
    refine ⟨?_, ?_, ?_⟩
    · simp only [initialise_game, GameState.initialise_game_state, List.map_map]
      have hcomp :
          (PuzzleLetter.character ∘ fun c => (⟨c, false⟩ : PuzzleLetter)) = id := rfl
      rw [hcomp, List.map_id]
    · simp [initialise_game, GameState.initialise_game_state, freshState]
    · intro pl hpl
      simp only [initialise_game, GameState.initialise_game_state,
        List.mem_map] at hpl
      obtain ⟨a, ha, rfl⟩ := hpl
      simp [initialise_game, GameState.initialise_game_state, freshState]
  | step g c hr hnew ih =>
    obtain ⟨ihc, ihr, ihg⟩ := ih
    by_cases hc : c ∈ g.remaining_letters
    · obtain ⟨hrem1, hidx1, hg1, hpz1⟩ := update_correct_fields g c hc
      refine ⟨?_, ?_, ?_⟩
      · rw [hpz1, List.map_map]
        have hcomp : (PuzzleLetter.character ∘ fun pl =>
            (⟨pl.character, pl.guessed || (pl.character == c)⟩ : PuzzleLetter))
            = PuzzleLetter.character := rfl
        rw [hcomp, ihc]
      · rw [hrem1, hg1, ihr]
        ext x
        simp only [Finset.mem_erase, Finset.mem_sdiff, Finset.mem_insert, not_or]
        tauto
      · rw [hpz1, hg1]
        intro pl hpl
        rw [List.mem_map] at hpl
        obtain ⟨q, hq, rfl⟩ := hpl
        have hqiff := ihg q hq
        simp only [Bool.or_eq_true, beq_iff_eq, Finset.mem_insert, hqiff]
        tauto
    · have hcw : c ∉ w.toFinset := by
        intro hmem
        refine hc ?_
        rw [ihr, Finset.mem_sdiff]
        exact ⟨hmem, hnew⟩
      obtain ⟨hrem1, hidx1, hg1, hpz1⟩ := update_wrong_fields g c hc
      refine ⟨?_, ?_, ?_⟩
      · rw [hpz1, ihc]
      · rw [hrem1, hg1, ihr]
        ext x
        simp only [Finset.mem_sdiff, Finset.mem_insert, not_or]
        constructor
        · rintro ⟨hxw, hxg⟩
          refine ⟨hxw, ?_, hxg⟩
          rintro rfl
          exact hcw hxw
        · rintro ⟨hxw, _, hxg⟩
          exact ⟨hxw, hxg⟩
      · rw [hpz1, hg1]
        intro pl hpl
        have hchar : pl.character ∈ w := by
          rw [← ihc]
          exact List.mem_map_of_mem _ hpl
        have hnec : pl.character ≠ c := by
          rintro rfl
          exact hcw (List.mem_toFinset.mpr hchar)
        rw [ihg pl hpl]
        simp [Finset.mem_insert, hnec]

/-- Claim C4: in every state reachable from a fresh round by validated
guesses, the remaining letters together with the letters of revealed
puzzle positions are exactly the distinct letters of the word, and
`remaining_letters` equals `distinct(word)` minus the guessed letters. -/
theorem reachable_remaining_invariant (w : List Char) (g : GameState)
    (h : Reachable w g) :
    g.remaining_letters ∪ revealedChars g.puzzle = w.toFinset ∧
    g.remaining_letters = w.toFinset \ g.guesses := by
  obtain ⟨ihc, ihr, ihg⟩ := reachable_state_inv w g h
  refine ⟨?_, ihr⟩
  have hrev : revealedChars g.puzzle = w.toFinset ∩ g.guesses := by
    ext x
    simp only [revealedChars, List.mem_toFinset, List.mem_map, List.mem_filter,
      Finset.mem_inter]
    constructor
    · rintro ⟨pl, ⟨hpl, hgd⟩, rfl⟩
      refine ⟨?_, (ihg pl hpl).mp hgd⟩
      rw [← ihc]
      exact List.mem_map_of_mem _ hpl
    · rintro ⟨hxw, hxg⟩
      rw [← ihc, List.mem_map] at hxw
      obtain ⟨pl, hpl, rfl⟩ := hxw
      exact ⟨pl, ⟨hpl, (ihg pl hpl).mpr hxg⟩, rfl⟩
  rw [ihr, hrev]
  exact Finset.sdiff_union_inter _ _

theorem reachable_remaining_invariant_witness :
    (update_game_state (initialise_game freshState ['C','A','T']) 'A').remaining_letters
        ∪ revealedChars
          (update_game_state (initialise_game freshState ['C','A','T']) 'A').puzzle
      = (['C','A','T'] : List Char).toFinset ∧
    (update_game_state (initialise_game freshState ['C','A','T']) 'A').remaining_letters
      = (['C','A','T'] : List Char).toFinset \
        (update_game_state (initialise_game freshState ['C','A','T']) 'A').guesses :=
  reachable_remaining_invariant ['C','A','T'] _
    (Reachable.step _ 'A' Reachable.init (by decide))

/-- Claim C9: `get_word_list` fails with the invalid-category error exactly
when the lower-cased category is not a key of `word_list_dict`; when it
succeeds every returned word is non-empty and entirely uppercase; and the
category "robots", with only "animals" registered, fails. -/
theorem get_word_list_spec :
    (∀ category : String,
      get_word_list category = .error "Invalid category." ↔
        word_list_dict.lookup (category.data.map Char.toLower) = none) ∧
    (∀ category ws, get_word_list category = .ok ws →
      ∀ w ∈ ws, w ≠ "" ∧ ∀ ch ∈ w.data, ch.isUpper = true) ∧
    get_word_list "robots" = .error "Invalid category." := by
  refine ⟨?_, ?_, rfl⟩
  · intro category
    rcases hl : word_list_dict.lookup (category.data.map Char.toLower) with _ | v <;>
      simp [get_word_list, hl]
  · intro category ws hok w hw
    unfold get_word_list at hok
    cases hl : word_list_dict.lookup (category.data.map Char.toLower) with
    | none => rw [hl] at hok; exact Except.noConfusion hok
    | some v =>
      rw [hl] at hok
      have hv : v = animal_words := by
        simp only [word_list_dict, List.lookup] at hl
        split at hl
        · injection hl with hv
          exact hv.symm
        · exact Option.noConfusion hl
      subst hv
      have hws : ws = (splitWS animal_words.data).map
          (fun w => String.mk (w.map Char.toUpper)) := by
        injection hok with h
        exact h.symm
      subst hws
      revert w hw
      decide

theorem get_word_list_spec_witness :
    ("DOG" ≠ "" ∧ ∀ ch ∈ "DOG".data, ch.isUpper = true) ∧
    get_word_list "robots" = Except.error "Invalid category." :=
  ⟨get_word_list_spec.2.1 "animals" animals_upper rfl "DOG" (by decide),
    get_word_list_spec.2.2⟩
